import Mathlib

/-!
Verification of the civ.iq license-header rewriting scripts.

The repository holds two Python scripts:

* `scripts/update_license_headers.py` ("underscore script"): replaces an
  exact MIT header (`OLD_MIT_HEADER`) with an AGPL header
  (`NEW_AGPL_HEADER`) via `str.replace(old, new, 1)`, prepends the AGPL
  header when no copyright-looking string occurs in the first 1000
  characters, and otherwise skips the file.

* `scripts/update-license-headers.py` ("dash script"): replaces headers
  matched by two regular expressions (`AGPL_PATTERN`, `COPYRIGHT_PATTERN`)
  with an MIT header (`NEW_HEADER`) via `re.sub`, and otherwise prepends
  the MIT header (after a leading "use client" line when present).

File contents are modelled as `List Char`.  The regular-expression
patterns are modelled by a small backtracking matcher whose atoms are
exactly the constructs the two patterns use (literals, single-character
classes, a greedy optional character, greedy and lazy single-character
stars); the matcher follows Python `re` leftmost-match backtracking
semantics, and `re.sub`'s scan-and-replace-all loop is modelled by
`subAll`.
-/

set_option maxRecDepth 100000
set_option maxHeartbeats 4000000

/-- The apostrophe character (used by the dash script's
"use client" marker test). -/
def quoteChar : Char := '\''

/-- `OLD_MIT_HEADER` of update_license_headers.py (note the trailing
spaces on the second and third lines, exactly as in the source). -/
def OLD_MIT_HEADER : List Char :=
  ("/**\n * CIV.IQ - Civic Information  \n * Copyright (c) 2025 CIV.IQ \n * Licensed under MIT License\n * Built with public government data\n */").data

/-- `NEW_AGPL_HEADER` of update_license_headers.py (note the trailing
space on the fourth line, exactly as in the source). -/
def NEW_AGPL_HEADER : List Char :=
  ("/*\n * CIV.IQ - Civic Information Hub\n * Copyright (C) 2025 Mark Sandford\n * \n * This program is free software: you can redistribute it and/or modify\n * it under the terms of the GNU Affero General Public License as published by\n * the Free Software Foundation, either version 3 of the License, or\n * (at your option) any later version.\n *\n * This program is distributed in the hope that it will be useful,\n * but WITHOUT ANY WARRANTY; without even the implied warranty of\n * MERCHANTABILITY or FITNESS FOR A PARTICULAR PURPOSE. See the\n * GNU Affero General Public License for more details.\n *\n * You should have received a copy of the GNU Affero General Public License\n * along with this program. If not, see <https://www.gnu.org/licenses/>.\n *\n * For commercial licensing inquiries: mark@marksandford.dev\n */").data

/-- `NEW_HEADER` of update-license-headers.py. -/
def NEW_HEADER : List Char :=
  ("/**\n * Copyright (c) 2019-2025 Mark Sandford\n * Licensed under the MIT License. See LICENSE and NOTICE files.\n */").data

/-- The word searched for (capitalised) in the first 1000 characters by
update_license_headers.py. -/
def CAP_COPYRIGHT : List Char := ("Copyright").data

/-- The word searched for (lower case) in the first 1000 characters by
update_license_headers.py. -/
def LOW_COPYRIGHT : List Char := ("copyright").data

/-- Two newline characters, the separator both scripts append after an
inserted header. -/
def NL2 : List Char := ("\n\n").data

/-- Python `pat in s` on strings: `pat` occurs as a contiguous substring
of `s`. -/
def containsSub (s pat : List Char) : Bool :=
  match s with
  | [] => pat.isEmpty
  | _ :: rest => pat.isPrefixOf s || containsSub rest pat

/-- Python `s.replace(pat, repl, 1)` for nonempty `pat`: replace the
leftmost occurrence of `pat` (if any) by `repl`. -/
def replaceFirst (s pat repl : List Char) : List Char :=
  match s with
  | [] => []
  | c :: rest =>
    if pat.isPrefixOf (c :: rest) then repl ++ (c :: rest).drop pat.length
    else c :: replaceFirst rest pat repl

/-- `pat` occurs in `s` starting at position `p`. -/
def occursAtB (s pat : List Char) (p : Nat) : Bool :=
  pat.isPrefixOf (s.drop p)

/-- Number of positions of `s` at which `pat` occurs (all positions,
overlapping occurrences included; meaningful for nonempty `pat`). -/
def countOcc (s pat : List Char) : Nat :=
  match s with
  | [] => 0
  | _ :: rest => (if pat.isPrefixOf s then 1 else 0) + countOcc rest pat

/-- Per-file outcome reported by `process_file` in
update_license_headers.py. -/
inductive Outcome where
  | replaced
  | added
  | skipped
  | error
deriving DecidableEq, Repr

/-- The copyright probe of update_license_headers.py:
`'Copyright' in content[:1000] or 'copyright' in content[:1000]`
(the script's added-branch guard is the negation of this). -/
def copyrightIn1000 (c : List Char) : Bool :=
  containsSub (c.take 1000) CAP_COPYRIGHT || containsSub (c.take 1000) LOW_COPYRIGHT

/-- Content computed by `process_file` of update_license_headers.py for
a file that reads as `c` (the content it writes back, or `c` itself when
it does not write). -/
def process_file_content (c : List Char) : List Char :=
  if containsSub c OLD_MIT_HEADER then replaceFirst c OLD_MIT_HEADER NEW_AGPL_HEADER
  else if !copyrightIn1000 c then NEW_AGPL_HEADER ++ NL2 ++ c
  else c

/-- Outcome string returned by `process_file` of
update_license_headers.py for a file that reads as `c` (error-free
case). -/
def process_file_outcome (c : List Char) : Outcome :=
  if containsSub c OLD_MIT_HEADER then .replaced
  else if !copyrightIn1000 c then .added
  else .skipped

/-- Whether `process_file` of update_license_headers.py opens the file
for writing: it writes inside the `replaced` and `added` branches and
nowhere else. -/
def process_file_wrote (c : List Char) : Bool :=
  match process_file_outcome c with
  | .replaced => true
  | .added => true
  | _ => false

/-- A file as seen by a per-file operation: it reads successfully with
content `c`, or reading/decoding raises, or writing raises (after a
successful read of `c`). -/
inductive FileCase where
  | ok (c : List Char)
  | readErr
  | writeErr (c : List Char)
deriving Repr

/-- `process_file` of update_license_headers.py over a `FileCase`: any
exception from reading or writing is caught by the function's
`try/except` and turned into the `error` outcome; a write exception can
only occur if the branch taken actually writes. -/
def process_file_run : FileCase → Outcome
  | .ok c => process_file_outcome c
  | .readErr => .error
  | .writeErr c => if process_file_wrote c then .error else process_file_outcome c

/-- Counters accumulated by `main` of update_license_headers.py. -/
structure Summary where
  replaced : Nat
  added : Nat
  skipped : Nat
  errors : Nat
deriving DecidableEq, Repr

/-- The counter loop of `main` in update_license_headers.py. -/
def tally : List Outcome → Summary
  | [] => ⟨0, 0, 0, 0⟩
  | o :: rest =>
    let s := tally rest
    match o with
    | .replaced => { s with replaced := s.replaced + 1 }
    | .added => { s with added := s.added + 1 }
    | .skipped => { s with skipped := s.skipped + 1 }
    | .error => { s with errors := s.errors + 1 }

/-- Exit status of `main` in update_license_headers.py: `sys.exit(1)`
when the error counter is positive, otherwise the function returns and
the interpreter exits with 0. -/
def process_main_exit (files : List FileCase) : Nat :=
  if (tally (files.map process_file_run)).errors > 0 then 1 else 0

/-- Atoms of the two regular expressions of update-license-headers.py:
literal characters, single-character classes, a greedy optional
character (`\*?`), greedy single-character star (`\s*`) and lazy
single-character star (`.*?` under DOTALL). -/
inductive RAtom where
  | lit (c : Char)
  | cls (f : Char → Bool)
  | optChar (f : Char → Bool)
  | starG (f : Char → Bool)
  | starL (f : Char → Bool)

/-- Backtracking matcher for a sequence of atoms against a string,
following Python `re` priority: greedy pieces prefer consuming more,
lazy pieces prefer consuming less, with full backtracking on failure.
Returns the remainder of the string after the match.  `fuel` only
drives termination; `ps.length + s.length + 1` is always enough. -/
def matchSeqF : Nat → List RAtom → List Char → Option (List Char)
  | 0, _, _ => none
  | _ + 1, [], s => some s
  | fuel + 1, .lit c :: ps, s =>
    match s with
    | [] => none
    | c' :: s' => if c' = c then matchSeqF fuel ps s' else none
  | fuel + 1, .cls f :: ps, s =>
    match s with
    | [] => none
    | c' :: s' => if f c' then matchSeqF fuel ps s' else none
  | fuel + 1, .optChar f :: ps, s =>
    match s with
    | [] => matchSeqF fuel ps []
    | c' :: s' =>
      if f c' then
        match matchSeqF fuel ps s' with
        | some r => some r
        | none => matchSeqF fuel ps (c' :: s')
      else matchSeqF fuel ps (c' :: s')
  | fuel + 1, .starG f :: ps, s =>
    match s with
    | [] => matchSeqF fuel ps []
    | c' :: s' =>
      if f c' then
        match matchSeqF fuel (.starG f :: ps) s' with
        | some r => some r
        | none => matchSeqF fuel ps (c' :: s')
      else matchSeqF fuel ps (c' :: s')
  | fuel + 1, .starL f :: ps, s =>
    match matchSeqF fuel ps s with
    | some r => some r
    | none =>
      match s with
      | [] => none
      | c' :: s' => if f c' then matchSeqF fuel (.starL f :: ps) s' else none

/-- Matcher with the fuel instantiated to a sufficient value. -/
def matchSeq (ps : List RAtom) (s : List Char) : Option (List Char) :=
  matchSeqF (ps.length + s.length + 1) ps s

/-- Python `pattern.search(s) is not None`: try a match at every start
position, left to right. -/
def searchb (ps : List RAtom) (s : List Char) : Bool :=
  match s with
  | [] => (matchSeq ps []).isSome
  | _ :: rest => (matchSeq ps s).isSome || searchb ps rest

/-- Python `pattern.sub(repl, s)` for patterns that cannot match the
empty string: scan left to right, replace each leftmost match and
continue after it.  (Both patterns of the script start with a literal,
so a match always consumes at least one character and the length guard
in the `some` case always holds.) -/
def subAllF : Nat → List RAtom → List Char → List Char → List Char
  | 0, _, _, _ => []
  | fuel + 1, ps, repl, s =>
    match s with
    | [] =>
      match matchSeq ps [] with
      | some _ => repl
      | none => []
    | c :: rest =>
      match matchSeq ps (c :: rest) with
      | some r =>
        if r.length < (c :: rest).length then repl ++ subAllF fuel ps repl r
        else c :: subAllF fuel ps repl rest
      | none => c :: subAllF fuel ps repl rest

/-- Substitution with the fuel instantiated to a sufficient value. -/
def subAll (ps : List RAtom) (repl s : List Char) : List Char :=
  subAllF (s.length + 1) ps repl s

/-- Python `\s` on the characters that can appear in ASCII source
text: space, tab, newline, carriage return, vertical tab, form feed. -/
def pyWs (c : Char) : Bool :=
  c = ' ' || c = '\t' || c = '\n' || c = '\r' || c = '\x0b' || c = '\x0c'

/-- `.` under `re.DOTALL`: any character. -/
def anyChar (_ : Char) : Bool := true

/-- A word as a sequence of literal atoms. -/
def lits (w : List Char) : List RAtom := w.map RAtom.lit

/-- `AGPL_PATTERN` of update-license-headers.py:
`/\*\s*\n\s*\*\s*CIV\.IQ.*?\n.*?GNU Affero General Public License.*?\*/\s*\n`
with `re.DOTALL` (`re.MULTILINE` is irrelevant: the pattern has no
anchors). -/
def AGPL_PATTERN : List RAtom :=
  [.lit '/', .lit '*', .starG pyWs, .lit '\n', .starG pyWs, .lit '*', .starG pyWs]
    ++ lits (("CIV.IQ").data)
    ++ [.starL anyChar, .lit '\n', .starL anyChar]
    ++ lits (("GNU Affero General Public License").data)
    ++ [.starL anyChar, .lit '*', .lit '/', .starG pyWs, .lit '\n']

/-- `COPYRIGHT_PATTERN` of update-license-headers.py:
`/\*\*?\s*\n.*?[Cc]opyright.*?\*/\s*\n` with `re.DOTALL`. -/
def COPYRIGHT_PATTERN : List RAtom :=
  [.lit '/', .lit '*', .optChar (fun c => c = '*'), .starG pyWs, .lit '\n',
   .starL anyChar, .cls (fun c => c = 'C' || c = 'c')]
    ++ lits (("opyright").data)
    ++ [.starL anyChar, .lit '*', .lit '/', .starG pyWs, .lit '\n']

/-- The marker string `'use client'` tested by
`content.startswith("'use client'")` in update-license-headers.py. -/
def USE_CLIENT : List Char := quoteChar :: (("use client").data ++ [quoteChar])

/-- `lines[0]` of `content.split('\n', 1)`. -/
def firstLine (c : List Char) : List Char := c.takeWhile (fun ch => ch ≠ '\n')

/-- `lines[1]` of `content.split('\n', 1)`, or `''` when there is no
newline. -/
def afterFirstLine (c : List Char) : List Char := c.drop ((firstLine c).length + 1)

/-- Content computed by `update_file` of update-license-headers.py for a
file that reads as `c` (the content it writes back, or `c` when
unchanged). -/
def update_file_transform (c : List Char) : List Char :=
  if searchb AGPL_PATTERN c then subAll AGPL_PATTERN (NEW_HEADER ++ NL2) c
  else if searchb COPYRIGHT_PATTERN c then subAll COPYRIGHT_PATTERN (NEW_HEADER ++ NL2) c
  else if USE_CLIENT.isPrefixOf c then
    firstLine c ++ NL2 ++ NEW_HEADER ++ NL2 ++ afterFirstLine c
  else NEW_HEADER ++ NL2 ++ c

/-- `update_file` writes back exactly when the computed content differs
from the original (`if content != original`). -/
def update_file_wrote (c : List Char) : Bool := update_file_transform c != c

/-- Return value of `update_file` over a `FileCase`: `True` only when a
write succeeded; any exception is caught by the `try/except` and yields
`False` (a write exception can only occur when a write was attempted,
and a read exception prevents everything else). -/
def update_file_run : FileCase → Bool
  | .ok c => update_file_wrote c
  | .readErr => false
  | .writeErr _ => false

/-- Whether processing a file raises a caught per-file exception in
update-license-headers.py: reads fail outright; writes fail only when a
write is attempted, i.e. when the content changed. -/
def update_file_error : FileCase → Bool
  | .ok _ => false
  | .readErr => true
  | .writeErr c => update_file_wrote c

/-- The counters of `main` in update-license-headers.py:
`(total_count, updated_count)`.  There is no error counter. -/
def update_main_counts (files : List FileCase) : Nat × Nat :=
  (files.length, files.countP update_file_run)

/-- Exit status of `main` in update-license-headers.py: the function
only prints and returns, so the interpreter always exits with 0,
whatever happened per file. -/
def update_main_exit (_ : List FileCase) : Nat := 0

/-- One-pass check over the nonempty tails of a string: whenever the
tail of length `j` equals `Y.take j`, the side condition `f j` holds.
The counter `j` is the tail's length. -/
def tailsImplChk (Y : List Char) (f : Nat → Bool) : List Char → Nat → Bool
  | [], _ => true
  | c :: rest, j =>
    (if (c :: rest) == Y.take j then f j else true) && tailsImplChk Y f rest (j - 1)

/-- Relational success semantics for the atom sequences: `Matches ps s r`
holds when `ps` can match a prefix of `s` leaving remainder `r`.
Backtracking priority is irrelevant to success, so the executable
matcher succeeds exactly when some derivation exists. -/
inductive Matches : List RAtom → List Char → List Char → Prop where
  | nil (s : List Char) : Matches [] s s
  | lit (ch : Char) (ps : List RAtom) (s r : List Char) :
      Matches ps s r → Matches (.lit ch :: ps) (ch :: s) r
  | cls (f : Char → Bool) (ps : List RAtom) (c : Char) (s r : List Char) :
      f c = true → Matches ps s r → Matches (.cls f :: ps) (c :: s) r
  | optSkip (f : Char → Bool) (ps : List RAtom) (s r : List Char) :
      Matches ps s r → Matches (.optChar f :: ps) s r
  | optTake (f : Char → Bool) (ps : List RAtom) (c : Char) (s r : List Char) :
      f c = true → Matches ps s r → Matches (.optChar f :: ps) (c :: s) r
  | gSkip (f : Char → Bool) (ps : List RAtom) (s r : List Char) :
      Matches ps s r → Matches (.starG f :: ps) s r
  | gTake (f : Char → Bool) (ps : List RAtom) (c : Char) (s r : List Char) :
      f c = true → Matches (.starG f :: ps) s r → Matches (.starG f :: ps) (c :: s) r
  | lSkip (f : Char → Bool) (ps : List RAtom) (s r : List Char) :
      Matches ps s r → Matches (.starL f :: ps) s r
  | lTake (f : Char → Bool) (ps : List RAtom) (c : Char) (s r : List Char) :
      f c = true → Matches (.starL f :: ps) s r → Matches (.starL f :: ps) (c :: s) r

/-- Shape of the text matched by `COPYRIGHT_PATTERN` starting at a given
suffix: a block comment opener `/*` optionally followed by a second `*`,
whitespace up to a line break, anything up to `Copyright` or
`copyright` (only the first letter varies), anything up to a
block-comment close `*/`, whitespace up to a line break. -/
def copyrightBlockAt (s : List Char) : Prop :=
  ∃ opt w1 mid1 cc mid2 w2 rest,
    s = '/' :: '*' :: (opt ++ (w1 ++ ('\n' :: (mid1 ++ (cc :: ((("opyright").data)
        ++ (mid2 ++ ('*' :: '/' :: (w2 ++ ('\n' :: rest))))))))))
    ∧ (opt = [] ∨ opt = ['*'])
    ∧ w1.all pyWs = true
    ∧ (cc = 'C' ∨ cc = 'c')
    ∧ w2.all pyWs = true

/-- What `COPYRIGHT_PATTERN.search` finds: some suffix of the content
starts a copyright block of the shape above. -/
def copyDecomp (s : List Char) : Prop := ∃ p, copyrightBlockAt (s.drop p)

-- Sanity examples (claim trials).
example : process_file_outcome (("const x = 1;\n").data) = .added := by decide

example : process_file_outcome (("// copyright me\nconst x = 1;\n").data) = .skipped := by
  decide

example :
    process_file_content (OLD_MIT_HEADER ++ OLD_MIT_HEADER)
      = NEW_AGPL_HEADER ++ OLD_MIT_HEADER := by decide

example :
    process_file_content (process_file_content (OLD_MIT_HEADER ++ OLD_MIT_HEADER))
      ≠ process_file_content (OLD_MIT_HEADER ++ OLD_MIT_HEADER) := by decide

example : searchb COPYRIGHT_PATTERN (("/*\n copyright\n*/\nx").data) = true := by decide

example : searchb COPYRIGHT_PATTERN (("/*\n COPYRIGHT\n*/\nx").data) = false := by decide

example :
    subAll COPYRIGHT_PATTERN (NEW_HEADER ++ NL2) (("/*\n copyright\n*/\nx").data)
      = NEW_HEADER ++ NL2 ++ ("x").data := by decide

example :
    update_file_transform (USE_CLIENT ++ ("\nexport const x = 1;").data)
      = USE_CLIENT ++ NL2 ++ NEW_HEADER ++ NL2 ++ ("export const x = 1;").data := by
  decide

example :
    update_file_transform (NEW_HEADER ++ NL2 ++ ("x").data)
      = NEW_HEADER ++ NL2 ++ ("x").data := by decide

/-! ## Basic facts about substring occurrence, counting and replacement -/

lemma isPrefixOf_true_iff {l₁ l₂ : List Char} : l₁.isPrefixOf l₂ = true ↔ l₁ <+: l₂ :=
  List.isPrefixOf_iff_prefix

lemma pre_iff_take {l₁ l₂ : List Char} : l₁ <+: l₂ ↔ l₁ = l₂.take l₁.length :=
  List.prefix_iff_eq_take

lemma take_pre (n : Nat) (l : List Char) : l.take n <+: l :=
  List.take_prefix n l

lemma pre_app (l₁ l₂ : List Char) : l₁ <+: l₁ ++ l₂ :=
  List.prefix_append l₁ l₂

lemma pre_app_of {pat Z : List Char} (Y : List Char) (h : pat <+: Z) : pat <+: Z ++ Y :=
  h.trans (pre_app Z Y)

lemma occursAtB_zero (s pat : List Char) : occursAtB s pat 0 = pat.isPrefixOf s := rfl

lemma occursAtB_succ (c : Char) (s pat : List Char) (p : Nat) :
    occursAtB (c :: s) pat (p + 1) = occursAtB s pat p := rfl

lemma occursAtB_true_iff {s pat : List Char} {p : Nat} :
    occursAtB s pat p = true ↔ pat <+: s.drop p := by
  unfold occursAtB; exact isPrefixOf_true_iff

lemma occursAtB_false_of_len {s pat : List Char} {p : Nat} (hne : pat ≠ [])
    (h : s.length ≤ p) : occursAtB s pat p = false := by
  unfold occursAtB
  rw [List.drop_eq_nil_of_le h]
  cases pat with
  | nil => exact absurd rfl hne
  | cons c l => rfl

lemma containsSub_true_iff {s pat : List Char} :
    containsSub s pat = true ↔ ∃ p, occursAtB s pat p = true := by
  induction s with
  | nil =>
    unfold containsSub
    constructor
    · intro h
      exact ⟨0, by unfold occursAtB; simpa [List.isPrefixOf] using h⟩
    · rintro ⟨p, hp⟩
      unfold occursAtB at hp
      simp only [List.drop_nil] at hp
      simpa [List.isPrefixOf] using hp
  | cons c rest ih =>
    unfold containsSub
    rw [Bool.or_eq_true, ih]
    constructor
    · rintro (h | ⟨p, hp⟩)
      · exact ⟨0, h⟩
      · exact ⟨p + 1, by rwa [occursAtB_succ]⟩
    · rintro ⟨p, hp⟩
      cases p with
      | zero => exact Or.inl hp
      | succ p => exact Or.inr ⟨p, by rwa [occursAtB_succ] at hp⟩

lemma containsSub_false_iff {s pat : List Char} :
    containsSub s pat = false ↔ ∀ p, occursAtB s pat p = false := by
  rw [← Bool.not_eq_true, containsSub_true_iff]
  push_neg
  simp [Bool.not_eq_true]

lemma containsSub_append_left {X pat : List Char} (Y : List Char)
    (h : containsSub X pat = true) : containsSub (X ++ Y) pat = true := by
  rw [containsSub_true_iff] at h ⊢
  obtain ⟨p, hp⟩ := h
  rw [occursAtB_true_iff] at hp
  refine ⟨p, ?_⟩
  rw [occursAtB_true_iff, List.drop_append_eq_append_drop]
  exact pre_app_of _ hp

lemma containsSub_append_right {Y pat : List Char} (X : List Char)
    (h : containsSub Y pat = true) : containsSub (X ++ Y) pat = true := by
  rw [containsSub_true_iff] at h ⊢
  obtain ⟨p, hp⟩ := h
  rw [occursAtB_true_iff] at hp
  refine ⟨X.length + p, ?_⟩
  rw [occursAtB_true_iff, List.drop_append_eq_append_drop,
    List.drop_eq_nil_of_le (by omega : X.length ≤ X.length + p), List.nil_append,
    Nat.add_sub_cancel_left]
  exact hp

/-- A prefix of an append is a prefix of the left part, or consumes the
whole left part and continues as a prefix of the right part. -/
lemma pre_append_split {pat Z Y : List Char} (h : pat <+: Z ++ Y) :
    (pat.length ≤ Z.length ∧ pat <+: Z)
    ∨ (Z.length ≤ pat.length ∧ Z = pat.take Z.length ∧ pat.drop Z.length <+: Y) := by
  rw [pre_iff_take, List.take_append_eq_append_take] at h
  by_cases hle : pat.length ≤ Z.length
  · left
    refine ⟨hle, ?_⟩
    rw [Nat.sub_eq_zero_of_le hle, List.take_zero, List.append_nil] at h
    rw [pre_iff_take]
    exact h
  · right
    push_neg at hle
    have hZ : Z.take pat.length = Z := List.take_of_length_le (by omega)
    rw [hZ] at h
    refine ⟨by omega, ?_, ?_⟩
    · rw [h, List.take_append_eq_append_take, Nat.sub_self, List.take_zero,
        List.append_nil, List.take_of_length_le (le_refl _)]
    · rw [h, List.drop_append_eq_append_drop, List.drop_eq_nil_of_le (le_refl _),
        Nat.sub_self, List.drop_zero, List.nil_append]
      exact take_pre _ _

/-- If `pat` occurs nowhere in `X` and nowhere in `Y` and no nonempty
proper prefix of `pat` is a suffix of `X`, then `pat` does not occur in
`X ++ Y`. -/
lemma no_occ_append {X Y pat : List Char}
    (hX : containsSub X pat = false) (hY : containsSub Y pat = false)
    (hstraddle : ∀ k, 0 < k → k < pat.length → X.drop (X.length - k) ≠ pat.take k) :
    containsSub (X ++ Y) pat = false := by
  rw [containsSub_false_iff]
  intro q
  by_contra hq
  rw [Bool.not_eq_false, occursAtB_true_iff, List.drop_append_eq_append_drop] at hq
  rw [containsSub_false_iff] at hX hY
  by_cases hqX : X.length ≤ q
  · rw [List.drop_eq_nil_of_le hqX, List.nil_append] at hq
    have hocc : occursAtB Y pat (q - X.length) = true := occursAtB_true_iff.mpr hq
    rw [hY] at hocc
    exact Bool.false_ne_true hocc
  · push_neg at hqX
    rw [Nat.sub_eq_zero_of_le (by omega), List.drop_zero] at hq
    rcases pre_append_split hq with ⟨_, hpre⟩ | ⟨hlen, heq, _⟩
    · have hocc : occursAtB X pat q = true := occursAtB_true_iff.mpr hpre
      rw [hX] at hocc
      exact Bool.false_ne_true hocc
    · have hdl : (X.drop q).length = X.length - q := List.length_drop q X
      by_cases hk : X.length - q < pat.length
      · exact hstraddle (X.length - q) (by omega) hk
          (by rw [(by omega : X.length - (X.length - q) = q)]; rw [heq, hdl])
      · have hplen : pat.length = X.length - q := by rw [hdl] at hlen; omega
        have hXq : X.drop q = pat := by
          rw [heq, hdl, ← hplen, List.take_length]
        have hocc : occursAtB X pat q = true :=
          occursAtB_true_iff.mpr (by rw [hXq])
        rw [hX] at hocc
        exact Bool.false_ne_true hocc

/-- Decomposition of a string at an occurrence of a nonempty pattern. -/
lemma decomp_of_occ {s pat : List Char} {p : Nat} (hne : pat ≠ [])
    (h : occursAtB s pat p = true) :
    s = s.take p ++ pat ++ s.drop (p + pat.length) ∧ p + pat.length ≤ s.length := by
  rw [occursAtB_true_iff] at h
  have hlen : pat.length ≤ s.length - p := by
    have := h.length_le
    rw [List.length_drop] at this
    exact this
  have hps : p < s.length := by
    by_contra hc
    push_neg at hc
    rw [List.drop_eq_nil_of_le hc] at h
    have := h.length_le
    simp at this
    exact hne this
  have htk : pat = (s.drop p).take pat.length := pre_iff_take.mp h
  have hdp : s.drop p = pat ++ s.drop (p + pat.length) := by
    conv_lhs => rw [← List.take_append_drop pat.length (s.drop p)]
    rw [← htk, List.drop_drop]
  refine ⟨?_, by omega⟩
  calc s = s.take p ++ s.drop p := (List.take_append_drop p s).symm
    _ = s.take p ++ (pat ++ s.drop (p + pat.length)) := by rw [hdp]
    _ = s.take p ++ pat ++ s.drop (p + pat.length) := by rw [List.append_assoc]

/-- `replaceFirst` rewrites exactly at the leftmost occurrence. -/
lemma replaceFirst_at {s pat repl : List Char} {p : Nat} (hne : pat ≠ [])
    (h1 : occursAtB s pat p = true) (h2 : ∀ q, q < p → occursAtB s pat q = false) :
    replaceFirst s pat repl = s.take p ++ repl ++ s.drop (p + pat.length) := by
  induction p generalizing s with
  | zero =>
    cases s with
    | nil =>
      rw [occursAtB_zero] at h1
      cases pat with
      | nil => exact absurd rfl hne
      | cons c l => simp [List.isPrefixOf] at h1
    | cons c rest =>
      rw [occursAtB_zero] at h1
      unfold replaceFirst
      rw [if_pos h1]
      simp
  | succ p ih =>
    cases s with
    | nil =>
      rw [occursAtB_false_of_len hne (by simp)] at h1
      exact absurd h1 (by simp)
    | cons c rest =>
      have h0 : occursAtB (c :: rest) pat 0 = false := h2 0 (by omega)
      rw [occursAtB_zero] at h0
      unfold replaceFirst
      rw [if_neg (by simp [h0])]
      rw [ih (by rwa [occursAtB_succ] at h1)
        (fun q hq => by rw [← occursAtB_succ c]; exact h2 (q + 1) (by omega))]
      rw [(by omega : p + 1 + pat.length = p + pat.length + 1)]
      simp [List.take_succ_cons, List.drop_succ_cons, List.cons_append,
        List.append_assoc]

/-- Every string containing a pattern has a leftmost occurrence. -/
lemma exists_first_occ {s pat : List Char} (h : containsSub s pat = true) :
    ∃ p, occursAtB s pat p = true ∧ ∀ q, q < p → occursAtB s pat q = false := by
  induction s with
  | nil =>
    unfold containsSub at h
    refine ⟨0, ?_, fun q hq => absurd hq (by omega)⟩
    rw [occursAtB_zero]
    cases pat with
    | nil => rfl
    | cons c l => simp at h
  | cons c rest ih =>
    unfold containsSub at h
    rw [Bool.or_eq_true] at h
    by_cases h0 : pat.isPrefixOf (c :: rest) = true
    · exact ⟨0, by rwa [occursAtB_zero], fun q hq => absurd hq (by omega)⟩
    · rcases h with h | h
      · exact absurd h h0
      · obtain ⟨p, hp1, hp2⟩ := ih h
        refine ⟨p + 1, by rwa [occursAtB_succ], fun q hq => ?_⟩
        cases q with
        | zero =>
          rw [occursAtB_zero]
          simp only [Bool.not_eq_true] at h0
          exact h0
        | succ q =>
          rw [occursAtB_succ]
          exact hp2 q (by omega)

lemma drop_append_len (X Y : List Char) (j : Nat) :
    (X ++ Y).drop (X.length + j) = Y.drop j := by
  rw [List.drop_append_eq_append_drop, List.drop_eq_nil_of_le (by omega),
    Nat.add_sub_cancel_left, List.nil_append]

lemma drop_append_left {X Y : List Char} {q : Nat} (h : X.length ≤ q) :
    (X ++ Y).drop q = Y.drop (q - X.length) := by
  rw [List.drop_append_eq_append_drop, List.drop_eq_nil_of_le h, List.nil_append]

lemma drop_append_lt {X Y : List Char} {q : Nat} (h : q < X.length) :
    (X ++ Y).drop q = X.drop q ++ Y := by
  rw [List.drop_append_eq_append_drop, Nat.sub_eq_zero_of_le (by omega),
    List.drop_zero]

lemma pre_append_both {a b B : List Char} (h : b <+: B) : a ++ b <+: a ++ B := by
  obtain ⟨t, ht⟩ := h
  exact ⟨t, by rw [List.append_assoc, ht]⟩

lemma countOcc_eq_zero_iff {s pat : List Char} (hne : pat ≠ []) :
    countOcc s pat = 0 ↔ ∀ p, occursAtB s pat p = false := by
  induction s with
  | nil =>
    constructor
    · intro _ p
      exact occursAtB_false_of_len hne (by simp)
    · intro _
      rfl
  | cons c rest ih =>
    unfold countOcc
    constructor
    · intro h p
      have h1 : pat.isPrefixOf (c :: rest) = false := by
        by_contra hc
        rw [Bool.not_eq_false] at hc
        rw [if_pos hc] at h
        omega
      have h2 : countOcc rest pat = 0 := by
        rw [if_neg (by simp [h1])] at h
        omega
      cases p with
      | zero => rw [occursAtB_zero]; exact h1
      | succ p => rw [occursAtB_succ]; exact (ih.mp h2) p
    · intro h
      have h0 := h 0
      rw [occursAtB_zero] at h0
      rw [if_neg (by simp [h0]),
        ih.mpr (fun p => by rw [← occursAtB_succ c]; exact h (p + 1))]

lemma countOcc_one_intro {s pat : List Char} (hne : pat ≠ []) (p : Nat)
    (h1 : occursAtB s pat p = true) (h2 : ∀ q, occursAtB s pat q = true → q = p) :
    countOcc s pat = 1 := by
  induction s generalizing p with
  | nil =>
    rw [occursAtB_false_of_len hne (by simp)] at h1
    exact absurd h1 (by simp)
  | cons c rest ih =>
    unfold countOcc
    cases p with
    | zero =>
      rw [occursAtB_zero] at h1
      rw [if_pos h1, (countOcc_eq_zero_iff hne).mpr]
      intro q
      by_contra hq
      rw [Bool.not_eq_false, ← occursAtB_succ c] at hq
      exact absurd (h2 (q + 1) hq) (by omega)
    | succ p =>
      have h0 : pat.isPrefixOf (c :: rest) = false := by
        by_contra hc
        rw [Bool.not_eq_false, ← occursAtB_zero] at hc
        exact absurd (h2 0 hc) (by omega)
      rw [if_neg (by simp [h0]),
        ih p (by rwa [occursAtB_succ] at h1)
          (fun q hq => by
            have := h2 (q + 1) (by rwa [occursAtB_succ])
            omega)]

lemma countOcc_one_elim {s pat : List Char} (hne : pat ≠ []) (h : countOcc s pat = 1) :
    ∃ p, occursAtB s pat p = true ∧ ∀ q, occursAtB s pat q = true → q = p := by
  induction s with
  | nil => exact absurd h (by simp [countOcc])
  | cons c rest ih =>
    unfold countOcc at h
    by_cases hpre : pat.isPrefixOf (c :: rest) = true
    · rw [if_pos hpre] at h
      have h0 : countOcc rest pat = 0 := by omega
      refine ⟨0, by rwa [occursAtB_zero], fun q hq => ?_⟩
      cases q with
      | zero => rfl
      | succ q =>
        rw [occursAtB_succ] at hq
        rw [(countOcc_eq_zero_iff hne).mp h0 q] at hq
        exact absurd hq (by simp)
    · rw [if_neg hpre] at h
      obtain ⟨p, hp1, hp2⟩ := ih (by omega)
      refine ⟨p + 1, by rwa [occursAtB_succ], fun q hq => ?_⟩
      cases q with
      | zero =>
        rw [occursAtB_zero] at hq
        exact absurd hq hpre
      | succ q =>
        rw [occursAtB_succ] at hq
        rw [hp2 q hq]

/-! ## Decidable overlap facts about the three concrete headers -/

lemma old_ne_nil : OLD_MIT_HEADER ≠ [] := by decide

lemma new_agpl_ne_nil : NEW_AGPL_HEADER ≠ [] := by decide

lemma old_lt_new : OLD_MIT_HEADER.length < NEW_AGPL_HEADER.length := by decide

lemma tailsImplChk_spec {Y : List Char} {f : Nat → Bool} :
    ∀ (X : List Char), tailsImplChk Y f X X.length = true →
    ∀ j, 0 < j → j ≤ X.length → X.drop (X.length - j) = Y.take j → f j = true := by
  intro X
  induction X with
  | nil =>
    intro _ j hj hle _
    simp at hle
    omega
  | cons c rest ih =>
    intro h j hj hle hdrop
    unfold tailsImplChk at h
    rw [Bool.and_eq_true] at h
    obtain ⟨h1, h2⟩ := h
    by_cases hcase : j = (c :: rest).length
    · have hdrop0 : (c :: rest).drop ((c :: rest).length - j) = c :: rest := by
        rw [hcase, Nat.sub_self, List.drop_zero]
      rw [hdrop0] at hdrop
      rw [← hcase] at h1
      rw [if_pos (by rw [beq_iff_eq]; exact hdrop)] at h1
      exact h1
    · have hle' : j ≤ rest.length := by
        simp only [List.length_cons] at hle hcase
        omega
      have hsub : (c :: rest).length - j = (rest.length - j) + 1 := by
        simp only [List.length_cons]
        omega
      rw [hsub, List.drop_succ_cons] at hdrop
      have h2' : tailsImplChk Y f rest rest.length = true := by
        simpa using h2
      exact ih h2' j hj hle' hdrop

/-- Check: whenever a nonempty suffix of `NEW_AGPL_HEADER` equals a
prefix of `OLD_MIT_HEADER` (only the one-character suffix `/` does), the
same-length suffix of `OLD_MIT_HEADER` equals that prefix too. -/
lemma overlap_new_old_chk :
    tailsImplChk OLD_MIT_HEADER
      (fun j => OLD_MIT_HEADER.drop (OLD_MIT_HEADER.length - j) == OLD_MIT_HEADER.take j)
      NEW_AGPL_HEADER NEW_AGPL_HEADER.length = true := by
  decide

lemma overlap_new_old : ∀ j, j < OLD_MIT_HEADER.length → 0 < j →
    NEW_AGPL_HEADER.drop (NEW_AGPL_HEADER.length - j) = OLD_MIT_HEADER.take j →
    OLD_MIT_HEADER.drop (OLD_MIT_HEADER.length - j) = OLD_MIT_HEADER.take j := by
  intro j hlt hpos hdrop
  have hle : j ≤ NEW_AGPL_HEADER.length := by
    have := old_lt_new
    omega
  exact beq_iff_eq.mp
    (tailsImplChk_spec NEW_AGPL_HEADER overlap_new_old_chk j hpos hle hdrop)

/-- Whenever a suffix of `OLD_MIT_HEADER` is a prefix of
`NEW_AGPL_HEADER`, it is also a prefix of `OLD_MIT_HEADER` (only the
one-character suffix `/` fires). -/
lemma overlap_old_new : ∀ t, t < OLD_MIT_HEADER.length → 0 < t →
    (OLD_MIT_HEADER.drop t).isPrefixOf NEW_AGPL_HEADER = true →
    (OLD_MIT_HEADER.drop t).isPrefixOf OLD_MIT_HEADER = true := by
  decide

/-- Whenever a proper nonempty suffix of `NEW_AGPL_HEADER` equals one of
its own prefixes (only the one-character suffix `/` does), the same-length
suffix of `OLD_MIT_HEADER` equals that prefix as well, and that prefix is
also a prefix of `OLD_MIT_HEADER`. -/
lemma new_self_overlap_chk :
    tailsImplChk NEW_AGPL_HEADER
      (fun j => decide (j = NEW_AGPL_HEADER.length)
        || ((OLD_MIT_HEADER.drop (OLD_MIT_HEADER.length - j) == NEW_AGPL_HEADER.take j)
            && (NEW_AGPL_HEADER.take j).isPrefixOf OLD_MIT_HEADER))
      NEW_AGPL_HEADER NEW_AGPL_HEADER.length = true := by
  decide

lemma new_self_overlap_old : ∀ j, j < NEW_AGPL_HEADER.length → 0 < j →
    NEW_AGPL_HEADER.drop (NEW_AGPL_HEADER.length - j) = NEW_AGPL_HEADER.take j →
    OLD_MIT_HEADER.drop (OLD_MIT_HEADER.length - j) = NEW_AGPL_HEADER.take j := by
  intro j hlt hpos hdrop
  have := tailsImplChk_spec NEW_AGPL_HEADER new_self_overlap_chk j hpos (by omega) hdrop
  rw [Bool.or_eq_true, Bool.and_eq_true] at this
  rcases this with h | ⟨h, _⟩
  · exact absurd (of_decide_eq_true h) (by omega)
  · exact beq_iff_eq.mp h

lemma new_self_overlap_pre_old : ∀ j, j < NEW_AGPL_HEADER.length → 0 < j →
    NEW_AGPL_HEADER.drop (NEW_AGPL_HEADER.length - j) = NEW_AGPL_HEADER.take j →
    (NEW_AGPL_HEADER.take j).isPrefixOf OLD_MIT_HEADER = true := by
  intro j hlt hpos hdrop
  have := tailsImplChk_spec NEW_AGPL_HEADER new_self_overlap_chk j hpos (by omega) hdrop
  rw [Bool.or_eq_true, Bool.and_eq_true] at this
  rcases this with h | ⟨_, h⟩
  · exact absurd (of_decide_eq_true h) (by omega)
  · exact h

/-- No nonempty proper prefix of `OLD_MIT_HEADER` is a suffix of
`NEW_AGPL_HEADER ++ NL2` (an occurrence of `OLD_MIT_HEADER` cannot
straddle the boundary after a freshly prepended header). -/
lemma no_straddle_chk :
    tailsImplChk OLD_MIT_HEADER (fun k => decide (OLD_MIT_HEADER.length ≤ k))
      (NEW_AGPL_HEADER ++ NL2) (NEW_AGPL_HEADER ++ NL2).length = true := by
  decide

lemma no_straddle_prepended : ∀ k, k < OLD_MIT_HEADER.length → 0 < k →
    (NEW_AGPL_HEADER ++ NL2).drop ((NEW_AGPL_HEADER ++ NL2).length - k)
      ≠ OLD_MIT_HEADER.take k := by
  intro k hlt hpos hdrop
  have := tailsImplChk_spec (NEW_AGPL_HEADER ++ NL2) no_straddle_chk k hpos
    (by have : OLD_MIT_HEADER.length ≤ (NEW_AGPL_HEADER ++ NL2).length := by decide
        omega) hdrop
  exact absurd (of_decide_eq_true this) (by omega)

lemma old_not_in_prepended : containsSub (NEW_AGPL_HEADER ++ NL2) OLD_MIT_HEADER = false := by
  decide

lemma cap_in_prepended : containsSub (NEW_AGPL_HEADER ++ NL2) CAP_COPYRIGHT = true := by
  decide

lemma prepended_short : (NEW_AGPL_HEADER ++ NL2).length ≤ 1000 := by decide

lemma old_not_in_new_sub : containsSub NEW_AGPL_HEADER OLD_MIT_HEADER = false := by
  decide

/-- `OLD_MIT_HEADER` is not a prefix of any suffix of `NEW_AGPL_HEADER`. -/
lemma old_not_in_new : ∀ k, OLD_MIT_HEADER.isPrefixOf (NEW_AGPL_HEADER.drop k) = false :=
  fun k => containsSub_false_iff.mp old_not_in_new_sub k

lemma old_len_pos : 0 < OLD_MIT_HEADER.length := by decide

lemma new_len_pos : 0 < NEW_AGPL_HEADER.length := by decide

/-- A pattern is a prefix of `pat.take j ++ B` whenever its tail after
`j` is a prefix of `B`. -/
lemma pre_via_take_drop {pat B : List Char} {j : Nat} (h : pat.drop j <+: B) :
    pat <+: pat.take j ++ B := by
  conv_lhs => rw [← List.take_append_drop j pat]
  exact pre_append_both h

/-- Core combinatorial fact for the `replaced` branch of
update_license_headers.py: replacing the unique occurrence of the old
header in `A ++ OLD ++ B` by the new header removes every occurrence of
the old header and leaves exactly one occurrence of the new header,
provided the new header occurred nowhere before the replacement. -/
lemma replace_unique_core {A B : List Char}
    (huniq : ∀ q, occursAtB (A ++ (OLD_MIT_HEADER ++ B)) OLD_MIT_HEADER q = true →
      q = A.length)
    (hnoNew : ∀ q, occursAtB (A ++ (OLD_MIT_HEADER ++ B)) NEW_AGPL_HEADER q = false) :
    containsSub (A ++ (NEW_AGPL_HEADER ++ B)) OLD_MIT_HEADER = false
    ∧ countOcc (A ++ (NEW_AGPL_HEADER ++ B)) NEW_AGPL_HEADER = 1 := by
  have hm := old_len_pos
  have hmn := old_lt_new
  constructor
  · rw [containsSub_false_iff]
    intro q
    by_contra hq
    rw [Bool.not_eq_false, occursAtB_true_iff] at hq
    by_cases hq1 : A.length + NEW_AGPL_HEADER.length ≤ q
    · -- the occurrence would start inside B
      rw [drop_append_left (show A.length ≤ q by omega),
        drop_append_left (show NEW_AGPL_HEADER.length ≤ q - A.length by omega)] at hq
      have hocc : occursAtB (A ++ (OLD_MIT_HEADER ++ B)) OLD_MIT_HEADER
          (A.length + (OLD_MIT_HEADER.length + (q - A.length - NEW_AGPL_HEADER.length)))
          = true := by
        rw [occursAtB_true_iff, drop_append_len,
          drop_append_left (show OLD_MIT_HEADER.length ≤
            OLD_MIT_HEADER.length + (q - A.length - NEW_AGPL_HEADER.length) by omega),
          (show OLD_MIT_HEADER.length + (q - A.length - NEW_AGPL_HEADER.length) -
            OLD_MIT_HEADER.length = q - A.length - NEW_AGPL_HEADER.length by omega)]
        exact hq
      have := huniq _ hocc
      omega
    · push_neg at hq1
      by_cases hq2 : A.length ≤ q
      · -- the occurrence would start inside the new header
        have hk : q - A.length < NEW_AGPL_HEADER.length := by omega
        rw [drop_append_left hq2, drop_append_lt hk] at hq
        rcases pre_append_split hq with ⟨hlen1, hpre1⟩ | ⟨hlen2, heq2, hpre2⟩
        · rw [← isPrefixOf_true_iff, old_not_in_new] at hpre1
          exact absurd hpre1 (by simp)
        · rw [List.length_drop] at hlen2 heq2 hpre2
          by_cases hjm :
              NEW_AGPL_HEADER.length - (q - A.length) = OLD_MIT_HEADER.length
          · have hdropOld : NEW_AGPL_HEADER.drop (q - A.length) = OLD_MIT_HEADER := by
              rw [heq2, hjm, List.take_length]
            have h' := old_not_in_new (q - A.length)
            rw [hdropOld] at h'
            have hrefl : OLD_MIT_HEADER.isPrefixOf OLD_MIT_HEADER = true :=
              isPrefixOf_true_iff.mpr List.prefix_rfl
            rw [h'] at hrefl
            exact absurd hrefl (by simp)
          · have hjlt : NEW_AGPL_HEADER.length - (q - A.length)
                < OLD_MIT_HEADER.length := by omega
            have hself := overlap_new_old _ hjlt (by omega)
              (by rw [(show NEW_AGPL_HEADER.length -
                  (NEW_AGPL_HEADER.length - (q - A.length)) = q - A.length by omega)]
                  exact heq2)
            have hocc : occursAtB (A ++ (OLD_MIT_HEADER ++ B)) OLD_MIT_HEADER
                (A.length + (OLD_MIT_HEADER.length -
                  (NEW_AGPL_HEADER.length - (q - A.length)))) = true := by
              rw [occursAtB_true_iff, drop_append_len,
                drop_append_lt (show OLD_MIT_HEADER.length -
                  (NEW_AGPL_HEADER.length - (q - A.length)) < OLD_MIT_HEADER.length
                  by omega),
                hself]
              exact pre_via_take_drop hpre2
            have := huniq _ hocc
            omega
      · -- the occurrence would start inside A
        push_neg at hq2
        have hcq : (A ++ (OLD_MIT_HEADER ++ B)).drop q
            = A.drop q ++ (OLD_MIT_HEADER ++ B) := drop_append_lt hq2
        rw [drop_append_lt hq2] at hq
        rcases pre_append_split hq with ⟨hlen1, hpre1⟩ | ⟨hlen2, heq2, hpre2⟩
        · have hocc : occursAtB (A ++ (OLD_MIT_HEADER ++ B)) OLD_MIT_HEADER q = true := by
            rw [occursAtB_true_iff, hcq]
            exact pre_app_of _ hpre1
          have := huniq _ hocc
          omega
        · rw [List.length_drop] at hlen2 heq2 hpre2
          by_cases htm : A.length - q = OLD_MIT_HEADER.length
          · have hAq : A.drop q = OLD_MIT_HEADER := by
              rw [heq2, htm, List.take_length]
            have hocc : occursAtB (A ++ (OLD_MIT_HEADER ++ B)) OLD_MIT_HEADER q = true := by
              rw [occursAtB_true_iff, hcq, hAq]
              exact pre_app_of _ List.prefix_rfl
            have := huniq _ hocc
            omega
          · have htlt : A.length - q < OLD_MIT_HEADER.length := by omega
            rcases pre_append_split hpre2 with ⟨hlen3, hpre3⟩ | ⟨hlen4, _, _⟩
            · have hpo := overlap_old_new _ htlt (by omega)
                (isPrefixOf_true_iff.mpr hpre3)
              rw [isPrefixOf_true_iff] at hpo
              have hocc : occursAtB (A ++ (OLD_MIT_HEADER ++ B)) OLD_MIT_HEADER q
                  = true := by
                rw [occursAtB_true_iff, hcq, heq2]
                exact pre_via_take_drop (pre_app_of _ hpo)
              have := huniq _ hocc
              omega
            · rw [List.length_drop] at hlen4
              omega
  · apply countOcc_one_intro new_agpl_ne_nil A.length
    · have hdp : (A ++ (NEW_AGPL_HEADER ++ B)).drop A.length
        = NEW_AGPL_HEADER ++ B := by
        have h0 := drop_append_len A (NEW_AGPL_HEADER ++ B) 0
        rw [Nat.add_zero] at h0
        rw [h0, List.drop_zero]
      rw [occursAtB_true_iff, hdp]
      exact pre_app _ _
    · intro q hq
      rw [occursAtB_true_iff] at hq
      by_cases hq1 : A.length + NEW_AGPL_HEADER.length ≤ q
      · rw [drop_append_left (show A.length ≤ q by omega),
          drop_append_left (show NEW_AGPL_HEADER.length ≤ q - A.length by omega)] at hq
        have hocc : occursAtB (A ++ (OLD_MIT_HEADER ++ B)) NEW_AGPL_HEADER
            (A.length + (OLD_MIT_HEADER.length + (q - A.length - NEW_AGPL_HEADER.length)))
            = true := by
          rw [occursAtB_true_iff, drop_append_len,
            drop_append_left (show OLD_MIT_HEADER.length ≤
              OLD_MIT_HEADER.length + (q - A.length - NEW_AGPL_HEADER.length) by omega),
            (show OLD_MIT_HEADER.length + (q - A.length - NEW_AGPL_HEADER.length) -
              OLD_MIT_HEADER.length = q - A.length - NEW_AGPL_HEADER.length by omega)]
          exact hq
        rw [hnoNew] at hocc
        exact absurd hocc (by simp)
      · push_neg at hq1
        by_cases hq2 : A.length ≤ q
        · by_cases hk0 : q = A.length
          · exact hk0
          · have hk : q - A.length < NEW_AGPL_HEADER.length := by omega
            rw [drop_append_left hq2, drop_append_lt hk] at hq
            rcases pre_append_split hq with ⟨hlen1, _⟩ | ⟨hlen2, heq2, hpre2⟩
            · rw [List.length_drop] at hlen1
              omega
            · rw [List.length_drop] at hlen2 heq2 hpre2
              have hself0 : NEW_AGPL_HEADER.drop
                  (NEW_AGPL_HEADER.length - (NEW_AGPL_HEADER.length - (q - A.length)))
                  = NEW_AGPL_HEADER.take (NEW_AGPL_HEADER.length - (q - A.length)) := by
                rw [(show NEW_AGPL_HEADER.length -
                  (NEW_AGPL_HEADER.length - (q - A.length)) = q - A.length by omega)]
                exact heq2
              have hso := new_self_overlap_old _ (by omega) (by omega) hself0
              have hlenso := congrArg List.length hso
              rw [List.length_drop, List.length_take,
                Nat.min_eq_left (show NEW_AGPL_HEADER.length - (q - A.length)
                  ≤ NEW_AGPL_HEADER.length by omega)] at hlenso
              have hocc : occursAtB (A ++ (OLD_MIT_HEADER ++ B)) NEW_AGPL_HEADER
                  (A.length + (OLD_MIT_HEADER.length -
                    (NEW_AGPL_HEADER.length - (q - A.length)))) = true := by
                rw [occursAtB_true_iff, drop_append_len,
                  drop_append_lt (show OLD_MIT_HEADER.length -
                    (NEW_AGPL_HEADER.length - (q - A.length)) < OLD_MIT_HEADER.length
                    by omega),
                  hso]
                exact pre_via_take_drop hpre2
              rw [hnoNew] at hocc
              exact absurd hocc (by simp)
        · push_neg at hq2
          have hcq : (A ++ (OLD_MIT_HEADER ++ B)).drop q
              = A.drop q ++ (OLD_MIT_HEADER ++ B) := drop_append_lt hq2
          rw [drop_append_lt hq2] at hq
          rcases pre_append_split hq with ⟨hlen1, hpre1⟩ | ⟨hlen2, heq2, hpre2⟩
          · have hocc : occursAtB (A ++ (OLD_MIT_HEADER ++ B)) NEW_AGPL_HEADER q
                = true := by
              rw [occursAtB_true_iff, hcq]
              exact pre_app_of _ hpre1
            rw [hnoNew] at hocc
            exact absurd hocc (by simp)
          · rw [List.length_drop] at hlen2 heq2 hpre2
            by_cases htn : A.length - q = NEW_AGPL_HEADER.length
            · have hAq : A.drop q = NEW_AGPL_HEADER := by
                rw [heq2, htn, List.take_length]
              have hocc : occursAtB (A ++ (OLD_MIT_HEADER ++ B)) NEW_AGPL_HEADER q
                  = true := by
                rw [occursAtB_true_iff, hcq, hAq]
                exact pre_app_of _ List.prefix_rfl
              rw [hnoNew] at hocc
              exact absurd hocc (by simp)
            · have htlt : A.length - q < NEW_AGPL_HEADER.length := by omega
              rcases pre_append_split hpre2 with ⟨hlen3, hpre3⟩ | ⟨hlen4, _, _⟩
              · have heq3 : NEW_AGPL_HEADER.drop (A.length - q)
                    = NEW_AGPL_HEADER.take
                      (NEW_AGPL_HEADER.length - (A.length - q)) := by
                  have := pre_iff_take.mp hpre3
                  rwa [List.length_drop] at this
                have hself0 : NEW_AGPL_HEADER.drop (NEW_AGPL_HEADER.length -
                    (NEW_AGPL_HEADER.length - (A.length - q)))
                    = NEW_AGPL_HEADER.take
                      (NEW_AGPL_HEADER.length - (A.length - q)) := by
                  rw [(show NEW_AGPL_HEADER.length -
                    (NEW_AGPL_HEADER.length - (A.length - q)) = A.length - q by omega)]
                  exact heq3
                have hpp := new_self_overlap_pre_old _ (by omega) (by omega) hself0
                rw [isPrefixOf_true_iff] at hpp
                have hocc : occursAtB (A ++ (OLD_MIT_HEADER ++ B)) NEW_AGPL_HEADER q
                    = true := by
                  rw [occursAtB_true_iff, hcq, heq2]
                  refine pre_via_take_drop ?_
                  rw [heq3]
                  exact pre_app_of _ hpp
                rw [hnoNew] at hocc
                exact absurd hocc (by simp)
              · rw [List.length_drop] at hlen4
                omega

/-- C3 (amended): for content in which the old MIT header occurs exactly
once and the new AGPL header does not occur, `process_file` reports
`replaced`, the output contains no occurrence of the old header, contains
the new header exactly once, and is the content with the occurrence
replaced by the new header verbatim (no extra blank line is appended by
the replacement). -/
theorem C3_replacement_unique (c : List Char)
    (h1 : countOcc c OLD_MIT_HEADER = 1)
    (h2 : containsSub c NEW_AGPL_HEADER = false) :
    process_file_outcome c = .replaced
    ∧ containsSub (process_file_content c) OLD_MIT_HEADER = false
    ∧ countOcc (process_file_content c) NEW_AGPL_HEADER = 1
    ∧ ∃ A B, c = A ++ OLD_MIT_HEADER ++ B
        ∧ process_file_content c = A ++ NEW_AGPL_HEADER ++ B := by
  obtain ⟨p, hp, huniq⟩ := countOcc_one_elim old_ne_nil h1
  have hnoNew := containsSub_false_iff.mp h2
  have hcs : containsSub c OLD_MIT_HEADER = true := containsSub_true_iff.mpr ⟨p, hp⟩
  obtain ⟨hdecomp, hplen⟩ := decomp_of_occ old_ne_nil hp
  have hfirst : ∀ q, q < p → occursAtB c OLD_MIT_HEADER q = false := by
    intro q hqp
    by_contra hc'
    rw [Bool.not_eq_false] at hc'
    have := huniq q hc'
    omega
  have hcontent : process_file_content c
      = c.take p ++ NEW_AGPL_HEADER ++ c.drop (p + OLD_MIT_HEADER.length) := by
    unfold process_file_content
    rw [if_pos hcs]
    exact replaceFirst_at old_ne_nil hp hfirst
  have houtcome : process_file_outcome c = .replaced := by
    unfold process_file_outcome
    rw [if_pos hcs]
  have hA : (c.take p).length = p := by
    rw [List.length_take]
    omega
  have hcAB : c = c.take p ++ (OLD_MIT_HEADER ++ c.drop (p + OLD_MIT_HEADER.length)) := by
    conv_lhs => rw [hdecomp]
    rw [List.append_assoc]
  have huniq' : ∀ q, occursAtB
      (c.take p ++ (OLD_MIT_HEADER ++ c.drop (p + OLD_MIT_HEADER.length)))
      OLD_MIT_HEADER q = true → q = (c.take p).length := by
    intro q hq
    rw [← hcAB] at hq
    rw [hA]
    exact huniq q hq
  have hnoNew' : ∀ q, occursAtB
      (c.take p ++ (OLD_MIT_HEADER ++ c.drop (p + OLD_MIT_HEADER.length)))
      NEW_AGPL_HEADER q = false := by
    intro q
    rw [← hcAB]
    exact hnoNew q
  obtain ⟨hres1, hres2⟩ := replace_unique_core huniq' hnoNew'
  refine ⟨houtcome, ?_, ?_,
    ⟨c.take p, c.drop (p + OLD_MIT_HEADER.length), hdecomp, hcontent⟩⟩
  · rw [hcontent, List.append_assoc]
    exact hres1
  · rw [hcontent, List.append_assoc]
    exact hres2

/-- C3 witness: a file consisting of exactly the old MIT header. -/
theorem C3_replacement_unique_witness :
    countOcc OLD_MIT_HEADER OLD_MIT_HEADER = 1
    ∧ containsSub OLD_MIT_HEADER NEW_AGPL_HEADER = false
    ∧ (process_file_outcome OLD_MIT_HEADER = .replaced
       ∧ containsSub (process_file_content OLD_MIT_HEADER) OLD_MIT_HEADER = false
       ∧ countOcc (process_file_content OLD_MIT_HEADER) NEW_AGPL_HEADER = 1
       ∧ ∃ A B, OLD_MIT_HEADER = A ++ OLD_MIT_HEADER ++ B
           ∧ process_file_content OLD_MIT_HEADER = A ++ NEW_AGPL_HEADER ++ B) :=
  ⟨by decide, by decide, C3_replacement_unique OLD_MIT_HEADER (by decide) (by decide)⟩

/-- C3 counterexample: a file containing the old MIT header twice.  The
rewrite replaces only the first occurrence (`str.replace(..., 1)`), so
residue of the old header remains in the output, contradicting the
claim's "no residue of the Variant A header text". -/
theorem C3_counterexample :
    containsSub (process_file_content (OLD_MIT_HEADER ++ OLD_MIT_HEADER))
      OLD_MIT_HEADER = true := by
  decide

/-- C1 counterexample: on a file containing the old MIT header twice,
the first run of `process_file` rewrites only the first occurrence, and
the second run rewrites the remaining one, so content does not stabilize
after one run. -/
theorem C1_counterexample :
    process_file_content (process_file_content (OLD_MIT_HEADER ++ OLD_MIT_HEADER))
      ≠ process_file_content (OLD_MIT_HEADER ++ OLD_MIT_HEADER) := by
  decide

/-- C1 (amended): the `process_file` content transformation is
idempotent on every content that does not contain the old MIT header. -/
theorem C1_idempotent_without_old (c : List Char)
    (h : containsSub c OLD_MIT_HEADER = false) :
    process_file_content (process_file_content c) = process_file_content c := by
  by_cases hcr : copyrightIn1000 c = true
  · have h1 : process_file_content c = c := by
      unfold process_file_content
      rw [if_neg (by simp [h]), hcr]
      simp
    rw [h1]
    exact h1
  · have hb : (!copyrightIn1000 c) = true := by
      revert hcr
      cases copyrightIn1000 c <;> simp
    have h1 : process_file_content c = NEW_AGPL_HEADER ++ (NL2 ++ c) := by
      unfold process_file_content
      rw [if_neg (by simp [h]), hb]
      simp
    have hr1 : containsSub (NEW_AGPL_HEADER ++ (NL2 ++ c)) OLD_MIT_HEADER = false := by
      rw [← List.append_assoc]
      exact no_occ_append old_not_in_prepended h
        (fun k hk1 hk2 => no_straddle_prepended k hk2 hk1)
    have hr2 : copyrightIn1000 (NEW_AGPL_HEADER ++ (NL2 ++ c)) = true := by
      unfold copyrightIn1000
      rw [Bool.or_eq_true]
      left
      rw [← List.append_assoc, List.take_append_eq_append_take,
        List.take_of_length_le prepended_short]
      exact containsSub_append_left _ cap_in_prepended
    rw [h1]
    unfold process_file_content
    rw [if_neg (by simp [hr1]), hr2]
    simp

/-- C1 witness: idempotence on a small header-free file. -/
theorem C1_idempotent_witness :
    containsSub (("const x = 1;").data) OLD_MIT_HEADER = false
    ∧ process_file_content (process_file_content (("const x = 1;").data))
        = process_file_content (("const x = 1;").data) :=
  ⟨by decide, C1_idempotent_without_old _ (by decide)⟩

/-- C2: both scripts write a file back exactly when the transformed
content differs from what was read: `update_file` compares contents
explicitly before writing, and the two writing branches of
`process_file` always change the content (replacing the old header by
the longer new one changes the length; prepending the new header changes
the length). -/
theorem C2_write_iff_changed (c : List Char) :
    (process_file_wrote c = true ↔ process_file_content c ≠ c)
    ∧ (update_file_wrote c = true ↔ update_file_transform c ≠ c) := by
  constructor
  · by_cases h1 : containsSub c OLD_MIT_HEADER = true
    · have ho : process_file_outcome c = .replaced := by
        unfold process_file_outcome
        rw [if_pos h1]
      have hw : process_file_wrote c = true := by
        unfold process_file_wrote
        rw [ho]
      have hc : process_file_content c = replaceFirst c OLD_MIT_HEADER NEW_AGPL_HEADER := by
        unfold process_file_content
        rw [if_pos h1]
      rw [hw, hc]
      simp only [true_iff]
      obtain ⟨p, hp, hfirst⟩ := exists_first_occ h1
      obtain ⟨_, hle⟩ := decomp_of_occ old_ne_nil hp
      rw [replaceFirst_at old_ne_nil hp hfirst]
      intro hEq
      have hlen := congrArg List.length hEq
      simp only [List.length_append, List.length_take, List.length_drop] at hlen
      have := old_lt_new
      omega
    · have h1f : containsSub c OLD_MIT_HEADER = false := by
        revert h1
        cases containsSub c OLD_MIT_HEADER <;> simp
      by_cases h2 : copyrightIn1000 c = true
      · have ho : process_file_outcome c = .skipped := by
          unfold process_file_outcome
          rw [if_neg (by simp [h1f]), h2]
          simp
        have hw : process_file_wrote c = false := by
          unfold process_file_wrote
          rw [ho]
        have hc : process_file_content c = c := by
          unfold process_file_content
          rw [if_neg (by simp [h1f]), h2]
          simp
        rw [hw, hc]
        simp
      · have hb : (!copyrightIn1000 c) = true := by
          revert h2
          cases copyrightIn1000 c <;> simp
        have ho : process_file_outcome c = .added := by
          unfold process_file_outcome
          rw [if_neg (by simp [h1f]), hb]
          simp
        have hw : process_file_wrote c = true := by
          unfold process_file_wrote
          rw [ho]
        have hc : process_file_content c = NEW_AGPL_HEADER ++ NL2 ++ c := by
          unfold process_file_content
          rw [if_neg (by simp [h1f]), hb]
          simp
        rw [hw, hc]
        simp only [true_iff]
        intro hEq
        have hlen := congrArg List.length hEq
        simp only [List.length_append] at hlen
        have := new_len_pos
        omega
  · unfold update_file_wrote
    exact bne_iff_ne

/-- C7: on content where the old MIT header does not occur but a
copyright-looking string occurs in the first 1000 characters,
`process_file` reports `skipped`, leaves the content untouched, and does
not write. -/
theorem C7_ambiguous_skip (c : List Char)
    (h1 : containsSub c OLD_MIT_HEADER = false)
    (h2 : copyrightIn1000 c = true) :
    process_file_outcome c = .skipped
    ∧ process_file_content c = c
    ∧ process_file_wrote c = false := by
  have ho : process_file_outcome c = .skipped := by
    unfold process_file_outcome
    rw [if_neg (by simp [h1]), h2]
    simp
  refine ⟨ho, ?_, ?_⟩
  · unfold process_file_content
    rw [if_neg (by simp [h1]), h2]
    simp
  · unfold process_file_wrote
    rw [ho]

/-- C7 witness: a file with a line-comment copyright notice. -/
theorem C7_ambiguous_skip_witness :
    containsSub (("// copyright me\nconst x = 1;\n").data) OLD_MIT_HEADER = false
    ∧ copyrightIn1000 (("// copyright me\nconst x = 1;\n").data) = true
    ∧ process_file_outcome (("// copyright me\nconst x = 1;\n").data) = .skipped
    ∧ process_file_content (("// copyright me\nconst x = 1;\n").data)
        = ("// copyright me\nconst x = 1;\n").data :=
  ⟨by decide, by decide, (C7_ambiguous_skip _ (by decide) (by decide)).1,
    (C7_ambiguous_skip _ (by decide) (by decide)).2.1⟩

/-- C10 (amended): the matchers are position-independent.  Whenever the
old MIT header occurs anywhere in the content — however deep —
`process_file` classifies the file as `replaced` and writes. -/
theorem C10_position_independent (c : List Char)
    (h : containsSub c OLD_MIT_HEADER = true) :
    process_file_outcome c = .replaced ∧ process_file_wrote c = true := by
  have ho : process_file_outcome c = .replaced := by
    unfold process_file_outcome
    rw [if_pos h]
  exact ⟨ho, by unfold process_file_wrote; rw [ho]⟩

/-- C10 witness. -/
theorem C10_position_independent_witness :
    containsSub (OLD_MIT_HEADER ++ ("\nconst x = 1;\n").data) OLD_MIT_HEADER = true
    ∧ process_file_outcome (OLD_MIT_HEADER ++ ("\nconst x = 1;\n").data) = .replaced :=
  ⟨by decide, (C10_position_independent _ (by decide)).1⟩

/-- C10 counterexample: a header occurrence 1500 characters deep — far
beyond the start of the file — is still classified and replaced, against
the claim that only occurrences at or near the start are recognized. -/
theorem C10_counterexample :
    process_file_outcome (List.replicate 1500 'x' ++ OLD_MIT_HEADER) = .replaced
    ∧ process_file_content (List.replicate 1500 'x' ++ OLD_MIT_HEADER)
        ≠ List.replicate 1500 'x' ++ OLD_MIT_HEADER := by
  have hcs : containsSub (List.replicate 1500 'x' ++ OLD_MIT_HEADER)
      OLD_MIT_HEADER = true :=
    containsSub_append_right _ (by decide)
  constructor
  · unfold process_file_outcome
    rw [if_pos hcs]
  · unfold process_file_content
    rw [if_pos hcs]
    obtain ⟨p, hp, hfirst⟩ := exists_first_occ hcs
    obtain ⟨_, hle⟩ := decomp_of_occ old_ne_nil hp
    rw [replaceFirst_at old_ne_nil hp hfirst]
    intro hEq
    have hlen := congrArg List.length hEq
    simp only [List.length_append, List.length_take, List.length_drop] at hlen
    have := old_lt_new
    omega

lemma tally_errors : ∀ os : List Outcome,
    (tally os).errors = os.countP (fun o => o == .error)
  | [] => by simp [tally]
  | o :: rest => by
    cases o <;> simp [tally, List.countP_cons, tally_errors rest]

/-- C5 (amended): the runner of update_license_headers.py exits with 0
exactly when no per-file error outcome occurred (and with 1 otherwise),
while the runner of update-license-headers.py always exits with 0, since
its `main` contains no exit-status logic at all. -/
theorem C5_exit_status (files : List FileCase) :
    (process_main_exit files = 0 ↔
      (files.map process_file_run).countP (fun o => o == .error) = 0)
    ∧ update_main_exit files = 0 := by
  constructor
  · unfold process_main_exit
    rw [tally_errors]
    constructor
    · intro h0
      by_contra hne
      rw [if_pos (by omega)] at h0
      omega
    · intro hz
      rw [hz]
      simp
  · rfl

/-- C5 counterexample: a run of update-license-headers.py over one file
whose read raises.  A per-file error occurred, yet the process exits
with status 0, contradicting the claimed non-zero exit. -/
theorem C5_counterexample :
    update_file_error FileCase.readErr = true
    ∧ update_main_exit [FileCase.readErr] = 0 :=
  ⟨rfl, rfl⟩

/-- C6 (amended): read and write failures are caught per file and turned
into the `error` outcome in both scripts, and the scan continues over
all files; update_license_headers.py counts them in its summary's error
counter, but update-license-headers.py has no error counter (its summary
only counts total and updated files). -/
theorem C6_failure_isolation (files : List FileCase) (c : List Char) :
    (files.map process_file_run).length = files.length
    ∧ (tally (files.map process_file_run)).errors
        = files.countP (fun f => process_file_run f == .error)
    ∧ process_file_run FileCase.readErr = Outcome.error
    ∧ process_file_run (FileCase.writeErr c)
        = (if process_file_wrote c = true then Outcome.error
           else process_file_outcome c)
    ∧ (update_main_counts files).1 = files.length := by
  refine ⟨List.length_map _ _, ?_, rfl, rfl, rfl⟩
  rw [tally_errors, List.countP_map]
  rfl

/-- C6 counterexample: update-license-headers.py does not count errors
in its run summary — the summary of a run over one file whose read
raises equals the summary of a run over one healthy file that needs no
update, so the error is invisible in the summary. -/
theorem C6_counterexample :
    update_file_error FileCase.readErr = true
    ∧ update_file_error (FileCase.ok (NEW_HEADER ++ NL2 ++ ("x").data)) = false
    ∧ update_main_counts [FileCase.readErr]
        = update_main_counts [FileCase.ok (NEW_HEADER ++ NL2 ++ ("x").data)] := by
  refine ⟨rfl, rfl, ?_⟩
  decide

lemma isPrefixOf_takeWhile {u c : List Char} (hu : u.isPrefixOf c = true)
    (hall : ∀ x ∈ u, x ≠ '\n') :
    u.isPrefixOf (c.takeWhile (fun ch => ch ≠ '\n')) = true := by
  induction u generalizing c with
  | nil => simp [List.isPrefixOf]
  | cons a u' ih =>
    cases c with
    | nil => simp [List.isPrefixOf] at hu
    | cons b c' =>
      simp only [List.isPrefixOf, Bool.and_eq_true, beq_iff_eq] at hu
      obtain ⟨hab, hu'⟩ := hu
      have hbn : b ≠ '\n' := by
        rw [← hab]
        exact hall a (by simp)
      rw [List.takeWhile_cons, if_pos (by simpa using hbn)]
      simp only [List.isPrefixOf, Bool.and_eq_true, beq_iff_eq]
      exact ⟨hab, ih hu' (fun x hx => hall x (by simp [hx]))⟩

/-- C8 (amended): only update-license-headers.py preserves a leading
`'use client'` marker line.  When neither regular expression matches and
the content starts with the marker, `update_file` keeps the whole first
line first and inserts the MIT header after it with one blank line
before and after; `process_file` has no marker handling and prepends its
header before the marker instead. -/
theorem C8_marker_preserved_dash (c : List Char)
    (h1 : searchb AGPL_PATTERN c = false)
    (h2 : searchb COPYRIGHT_PATTERN c = false)
    (h3 : USE_CLIENT.isPrefixOf c = true) :
    update_file_transform c
      = firstLine c ++ NL2 ++ NEW_HEADER ++ NL2 ++ afterFirstLine c
    ∧ USE_CLIENT.isPrefixOf (update_file_transform c) = true := by
  have ht : update_file_transform c
      = firstLine c ++ NL2 ++ NEW_HEADER ++ NL2 ++ afterFirstLine c := by
    unfold update_file_transform
    rw [if_neg (by simp [h1]), if_neg (by simp [h2]), if_pos h3]
  refine ⟨ht, ?_⟩
  rw [ht]
  have hfl : USE_CLIENT.isPrefixOf (firstLine c) = true := by
    unfold firstLine
    exact isPrefixOf_takeWhile h3 (by decide)
  rw [isPrefixOf_true_iff] at hfl ⊢
  exact pre_app_of _ (pre_app_of _ (pre_app_of _ (pre_app_of _ hfl)))

/-- C8 witness: the spec's own example input, processed by
update-license-headers.py. -/
theorem C8_marker_preserved_dash_witness :
    searchb AGPL_PATTERN (USE_CLIENT ++ ("\nexport const x = 1;").data) = false
    ∧ USE_CLIENT.isPrefixOf (USE_CLIENT ++ ("\nexport const x = 1;").data) = true
    ∧ update_file_transform (USE_CLIENT ++ ("\nexport const x = 1;").data)
        = firstLine (USE_CLIENT ++ ("\nexport const x = 1;").data) ++ NL2 ++ NEW_HEADER
          ++ NL2 ++ afterFirstLine (USE_CLIENT ++ ("\nexport const x = 1;").data) :=
  ⟨by decide, by decide,
    (C8_marker_preserved_dash _ (by decide) (by decide) (by decide)).1⟩

/-- C8 counterexample: on the spec's example input — a leading
`'use client'` marker and no recognized header — `process_file` of
update_license_headers.py prepends the AGPL header *before* the marker,
so the marker is not preserved as the very first line, contradicting the
claim for this script. -/
theorem C8_counterexample :
    process_file_content (USE_CLIENT ++ ("\nexport const x = 1;").data)
      = NEW_AGPL_HEADER ++ NL2 ++ (USE_CLIENT ++ ("\nexport const x = 1;").data)
    ∧ USE_CLIENT.isPrefixOf
        (process_file_content (USE_CLIENT ++ ("\nexport const x = 1;").data)) = false := by
  refine ⟨?_, ?_⟩ <;> decide

/-- C9: when no recognized header is present and (for the dash script)
no leading marker line either, both scripts produce exactly the
replacement header, one blank line, and the original content verbatim. -/
theorem C9_verbatim_prepend (c : List Char) :
    (containsSub c OLD_MIT_HEADER = false → copyrightIn1000 c = false →
      process_file_content c = NEW_AGPL_HEADER ++ NL2 ++ c
      ∧ process_file_outcome c = .added)
    ∧ (searchb AGPL_PATTERN c = false → searchb COPYRIGHT_PATTERN c = false →
      USE_CLIENT.isPrefixOf c = false →
      update_file_transform c = NEW_HEADER ++ NL2 ++ c) := by
  constructor
  · intro h1 h2
    constructor
    · unfold process_file_content
      rw [if_neg (by simp [h1]), h2]
      simp
    · unfold process_file_outcome
      rw [if_neg (by simp [h1]), h2]
      simp
  · intro h1 h2 h3
    unfold update_file_transform
    rw [if_neg (by simp [h1]), if_neg (by simp [h2]), if_neg (by simp [h3])]

/-- C9 witness: a small header-free, marker-free file through both
scripts. -/
theorem C9_verbatim_prepend_witness :
    containsSub (("export const x = 1;\n").data) OLD_MIT_HEADER = false
    ∧ copyrightIn1000 (("export const x = 1;\n").data) = false
    ∧ process_file_content (("export const x = 1;\n").data)
        = NEW_AGPL_HEADER ++ NL2 ++ ("export const x = 1;\n").data
    ∧ update_file_transform (("export const x = 1;\n").data)
        = NEW_HEADER ++ NL2 ++ ("export const x = 1;\n").data :=
  ⟨by decide, by decide,
    ((C9_verbatim_prepend _).1 (by decide) (by decide)).1,
    (C9_verbatim_prepend _).2 (by decide) (by decide) (by decide)⟩

lemma isSome_orElse (x y : Option (List Char)) :
    (match x with | some r => some r | none => y).isSome = (x.isSome || y.isSome) := by
  cases x <;> simp

lemma matchSeqF_isSome_iff : ∀ (fu : Nat) (ps : List RAtom) (s : List Char),
    ps.length + s.length < fu →
    ((matchSeqF fu ps s).isSome = true ↔ ∃ r, Matches ps s r) := by
  intro fu
  induction fu with
  | zero =>
    intro ps s h
    omega
  | succ fu ih =>
    intro ps s h
    cases ps with
    | nil =>
      simp only [matchSeqF, Option.isSome_some]
      constructor
      · intro _
        exact ⟨s, Matches.nil s⟩
      · intro _
        trivial
    | cons a ps' =>
      cases a with
      | lit ch =>
        cases s with
        | nil =>
          simp only [matchSeqF, Option.isSome_none]
          constructor
          · intro hf
            exact absurd hf (by simp)
          · rintro ⟨r, hr⟩
            cases hr
        | cons c' s' =>
          simp only [matchSeqF]
          by_cases hc : c' = ch
          · rw [if_pos hc,
              ih ps' s' (by simp only [List.length_cons] at h; omega)]
            subst hc
            constructor
            · rintro ⟨r, hr⟩
              exact ⟨r, Matches.lit c' ps' s' r hr⟩
            · rintro ⟨r, hr⟩
              cases hr with
              | lit _ _ _ _ h' => exact ⟨_, h'⟩
          · rw [if_neg hc]
            simp only [Option.isSome_none]
            constructor
            · intro hf
              exact absurd hf (by simp)
            · rintro ⟨r, hr⟩
              cases hr with
              | lit _ _ _ _ h' => exact absurd rfl hc
      | cls f =>
        cases s with
        | nil =>
          simp only [matchSeqF, Option.isSome_none]
          constructor
          · intro hf
            exact absurd hf (by simp)
          · rintro ⟨r, hr⟩
            cases hr
        | cons c' s' =>
          simp only [matchSeqF]
          by_cases hc : f c' = true
          · rw [if_pos hc,
              ih ps' s' (by simp only [List.length_cons] at h; omega)]
            constructor
            · rintro ⟨r, hr⟩
              exact ⟨r, Matches.cls f ps' c' s' r hc hr⟩
            · rintro ⟨r, hr⟩
              cases hr with
              | cls _ _ _ _ _ _ h' => exact ⟨_, h'⟩
          · rw [if_neg hc]
            simp only [Option.isSome_none]
            constructor
            · intro hf
              exact absurd hf (by simp)
            · rintro ⟨r, hr⟩
              cases hr with
              | cls _ _ _ _ _ hfc h' => exact absurd hfc hc
      | optChar f =>
        cases s with
        | nil =>
          simp only [matchSeqF]
          rw [ih ps' [] (by simp only [List.length_cons] at h ⊢; omega)]
          constructor
          · rintro ⟨r, hr⟩
            exact ⟨r, Matches.optSkip f ps' [] r hr⟩
          · rintro ⟨r, hr⟩
            cases hr with
            | optSkip _ _ _ _ h' => exact ⟨_, h'⟩
        | cons c' s' =>
          simp only [matchSeqF]
          by_cases hc : f c' = true
          · rw [if_pos hc, isSome_orElse, Bool.or_eq_true,
              ih ps' s' (by simp only [List.length_cons] at h; omega),
              ih ps' (c' :: s') (by simp only [List.length_cons] at h ⊢; omega)]
            constructor
            · rintro (⟨r, hr⟩ | ⟨r, hr⟩)
              · exact ⟨r, Matches.optTake f ps' c' s' r hc hr⟩
              · exact ⟨r, Matches.optSkip f ps' (c' :: s') r hr⟩
            · rintro ⟨r, hr⟩
              cases hr with
              | optSkip _ _ _ _ h' => exact Or.inr ⟨_, h'⟩
              | optTake _ _ _ _ _ _ h' => exact Or.inl ⟨_, h'⟩
          · rw [if_neg hc,
              ih ps' (c' :: s') (by simp only [List.length_cons] at h ⊢; omega)]
            constructor
            · rintro ⟨r, hr⟩
              exact ⟨r, Matches.optSkip f ps' (c' :: s') r hr⟩
            · rintro ⟨r, hr⟩
              cases hr with
              | optSkip _ _ _ _ h' => exact ⟨_, h'⟩
              | optTake _ _ _ _ _ hfc h' => exact absurd hfc hc
      | starG f =>
        cases s with
        | nil =>
          simp only [matchSeqF]
          rw [ih ps' [] (by simp only [List.length_cons] at h ⊢; omega)]
          constructor
          · rintro ⟨r, hr⟩
            exact ⟨r, Matches.gSkip f ps' [] r hr⟩
          · rintro ⟨r, hr⟩
            cases hr with
            | gSkip _ _ _ _ h' => exact ⟨_, h'⟩
        | cons c' s' =>
          simp only [matchSeqF]
          by_cases hc : f c' = true
          · rw [if_pos hc, isSome_orElse, Bool.or_eq_true,
              ih (RAtom.starG f :: ps') s'
                (by simp only [List.length_cons] at h ⊢; omega),
              ih ps' (c' :: s') (by simp only [List.length_cons] at h ⊢; omega)]
            constructor
            · rintro (⟨r, hr⟩ | ⟨r, hr⟩)
              · exact ⟨r, Matches.gTake f ps' c' s' r hc hr⟩
              · exact ⟨r, Matches.gSkip f ps' (c' :: s') r hr⟩
            · rintro ⟨r, hr⟩
              cases hr with
              | gSkip _ _ _ _ h' => exact Or.inr ⟨_, h'⟩
              | gTake _ _ _ _ _ _ h' => exact Or.inl ⟨_, h'⟩
          · rw [if_neg hc,
              ih ps' (c' :: s') (by simp only [List.length_cons] at h ⊢; omega)]
            constructor
            · rintro ⟨r, hr⟩
              exact ⟨r, Matches.gSkip f ps' (c' :: s') r hr⟩
            · rintro ⟨r, hr⟩
              cases hr with
              | gSkip _ _ _ _ h' => exact ⟨_, h'⟩
              | gTake _ _ _ _ _ hfc h' => exact absurd hfc hc
      | starL f =>
        cases s with
        | nil =>
          simp only [matchSeqF, isSome_orElse, Bool.or_eq_true, Option.isSome_none]
          rw [ih ps' [] (by simp only [List.length_cons] at h ⊢; omega)]
          constructor
          · rintro (⟨r, hr⟩ | hf)
            · exact ⟨r, Matches.lSkip f ps' [] r hr⟩
            · exact absurd hf (by simp)
          · rintro ⟨r, hr⟩
            cases hr with
            | lSkip _ _ _ _ h' => exact Or.inl ⟨_, h'⟩
        | cons c' s' =>
          simp only [matchSeqF, isSome_orElse, Bool.or_eq_true]
          rw [ih ps' (c' :: s') (by simp only [List.length_cons] at h ⊢; omega)]
          by_cases hc : f c' = true
          · rw [if_pos hc,
              ih (RAtom.starL f :: ps') s'
                (by simp only [List.length_cons] at h ⊢; omega)]
            constructor
            · rintro (⟨r, hr⟩ | ⟨r, hr⟩)
              · exact ⟨r, Matches.lSkip f ps' (c' :: s') r hr⟩
              · exact ⟨r, Matches.lTake f ps' c' s' r hc hr⟩
            · rintro ⟨r, hr⟩
              cases hr with
              | lSkip _ _ _ _ h' => exact Or.inl ⟨_, h'⟩
              | lTake _ _ _ _ _ _ h' => exact Or.inr ⟨_, h'⟩
          · rw [if_neg hc]
            simp only [Option.isSome_none]
            constructor
            · rintro (⟨r, hr⟩ | hf)
              · exact ⟨r, Matches.lSkip f ps' (c' :: s') r hr⟩
              · exact absurd hf (by simp)
            · rintro ⟨r, hr⟩
              cases hr with
              | lSkip _ _ _ _ h' => exact Or.inl ⟨_, h'⟩
              | lTake _ _ _ _ _ hfc h' => exact absurd hfc hc

lemma matchSeq_isSome_iff (ps : List RAtom) (s : List Char) :
    (matchSeq ps s).isSome = true ↔ ∃ r, Matches ps s r :=
  matchSeqF_isSome_iff _ ps s (by omega)

lemma searchb_true_iff (ps : List RAtom) (s : List Char) :
    searchb ps s = true ↔ ∃ p r, Matches ps (s.drop p) r := by
  induction s with
  | nil =>
    unfold searchb
    rw [matchSeq_isSome_iff]
    constructor
    · rintro ⟨r, hr⟩
      exact ⟨0, r, by simpa using hr⟩
    · rintro ⟨p, r, hr⟩
      exact ⟨r, by simpa using hr⟩
  | cons ch rest ih =>
    unfold searchb
    rw [Bool.or_eq_true, matchSeq_isSome_iff, ih]
    constructor
    · rintro (⟨r, hr⟩ | ⟨p, r, hr⟩)
      · exact ⟨0, r, hr⟩
      · exact ⟨p + 1, r, by rwa [List.drop_succ_cons]⟩
    · rintro ⟨p, r, hr⟩
      cases p with
      | zero => exact Or.inl ⟨r, hr⟩
      | succ p => exact Or.inr ⟨p, r, by rwa [List.drop_succ_cons] at hr⟩

lemma matches_nil_iff {s r : List Char} : Matches [] s r ↔ r = s := by
  constructor
  · intro h
    cases h
    rfl
  · rintro rfl
    exact Matches.nil _

lemma matches_lit_iff {ch : Char} {ps : List RAtom} {s r : List Char} :
    Matches (.lit ch :: ps) s r ↔ ∃ s', s = ch :: s' ∧ Matches ps s' r := by
  constructor
  · intro h
    cases h with
    | lit _ _ s' _ h' => exact ⟨s', rfl, h'⟩
  · rintro ⟨s', rfl, h'⟩
    exact Matches.lit ch ps s' r h'

lemma matches_cls_iff {f : Char → Bool} {ps : List RAtom} {s r : List Char} :
    Matches (.cls f :: ps) s r ↔ ∃ c s', s = c :: s' ∧ f c = true ∧ Matches ps s' r := by
  constructor
  · intro h
    cases h with
    | cls _ _ c s' _ hfc h' => exact ⟨c, s', rfl, hfc, h'⟩
  · rintro ⟨c, s', rfl, hfc, h'⟩
    exact Matches.cls f ps c s' r hfc h'

lemma matches_opt_iff {f : Char → Bool} {ps : List RAtom} {s r : List Char} :
    Matches (.optChar f :: ps) s r ↔
      Matches ps s r ∨ ∃ c s', s = c :: s' ∧ f c = true ∧ Matches ps s' r := by
  constructor
  · intro h
    cases h with
    | optSkip _ _ _ _ h' => exact Or.inl h'
    | optTake _ _ c s' _ hfc h' => exact Or.inr ⟨c, s', rfl, hfc, h'⟩
  · rintro (h' | ⟨c, s', rfl, hfc, h'⟩)
    · exact Matches.optSkip f ps s r h'
    · exact Matches.optTake f ps c s' r hfc h'

lemma matches_starG_iff {f : Char → Bool} {ps : List RAtom} {s r : List Char} :
    Matches (.starG f :: ps) s r ↔
      ∃ u s', s = u ++ s' ∧ u.all f = true ∧ Matches ps s' r := by
  constructor
  · intro h
    revert h
    induction s with
    | nil =>
      intro h
      cases h with
      | gSkip _ _ _ _ h' => exact ⟨[], [], rfl, rfl, h'⟩
    | cons c s'' ih =>
      intro h
      cases h with
      | gSkip _ _ _ _ h' => exact ⟨[], c :: s'', rfl, rfl, h'⟩
      | gTake _ _ _ _ _ hfc h' =>
        obtain ⟨u, s', heq, hall, hps⟩ := ih h'
        exact ⟨c :: u, s', by rw [List.cons_append, heq],
          by simp [List.all_cons, hfc, hall], hps⟩
  · rintro ⟨u, s', rfl, hall, hps⟩
    revert hall
    induction u with
    | nil =>
      intro _
      simpa using Matches.gSkip f ps s' r hps
    | cons c u' ih =>
      intro hall
      rw [List.all_cons, Bool.and_eq_true] at hall
      exact Matches.gTake f ps c (u' ++ s') r hall.1 (ih hall.2)

lemma matches_starL_iff {f : Char → Bool} {ps : List RAtom} {s r : List Char} :
    Matches (.starL f :: ps) s r ↔
      ∃ u s', s = u ++ s' ∧ u.all f = true ∧ Matches ps s' r := by
  constructor
  · intro h
    revert h
    induction s with
    | nil =>
      intro h
      cases h with
      | lSkip _ _ _ _ h' => exact ⟨[], [], rfl, rfl, h'⟩
    | cons c s'' ih =>
      intro h
      cases h with
      | lSkip _ _ _ _ h' => exact ⟨[], c :: s'', rfl, rfl, h'⟩
      | lTake _ _ _ _ _ hfc h' =>
        obtain ⟨u, s', heq, hall, hps⟩ := ih h'
        exact ⟨c :: u, s', by rw [List.cons_append, heq],
          by simp [List.all_cons, hfc, hall], hps⟩
  · rintro ⟨u, s', rfl, hall, hps⟩
    revert hall
    induction u with
    | nil =>
      intro _
      simpa using Matches.lSkip f ps s' r hps
    | cons c u' ih =>
      intro hall
      rw [List.all_cons, Bool.and_eq_true] at hall
      exact Matches.lTake f ps c (u' ++ s') r hall.1 (ih hall.2)

lemma matches_lits_iff {w : List Char} {ps : List RAtom} {s r : List Char} :
    Matches (lits w ++ ps) s r ↔ ∃ s', s = w ++ s' ∧ Matches ps s' r := by
  induction w generalizing s with
  | nil =>
    simp only [lits, List.map_nil, List.nil_append]
    constructor
    · intro h
      exact ⟨s, rfl, h⟩
    · rintro ⟨s', rfl, h⟩
      exact h
  | cons ch w' ih =>
    have hstep : lits (ch :: w') ++ ps = .lit ch :: (lits w' ++ ps) := rfl
    rw [hstep, matches_lit_iff]
    constructor
    · rintro ⟨s', rfl, h⟩
      obtain ⟨s'', rfl, h'⟩ := ih.mp h
      exact ⟨s'', rfl, h'⟩
    · rintro ⟨s', rfl, h⟩
      exact ⟨w' ++ s', rfl, ih.mpr ⟨s', rfl, h⟩⟩

lemma all_anyChar (u : List Char) : u.all anyChar = true := by
  simp [List.all_eq_true, anyChar]

lemma matches_copyright_iff (t : List Char) :
    (∃ r, Matches COPYRIGHT_PATTERN t r) ↔ copyrightBlockAt t := by
  have hpat : COPYRIGHT_PATTERN
      = .lit '/' :: .lit '*' :: .optChar (fun c => c = '*') :: .starG pyWs :: .lit '\n'
        :: .starL anyChar :: .cls (fun c => c = 'C' || c = 'c')
        :: (lits ((("opyright").data)) ++ [.starL anyChar, .lit '*', .lit '/',
            .starG pyWs, .lit '\n']) := rfl
  rw [hpat]
  constructor
  · rintro ⟨r, h⟩
    rw [matches_lit_iff] at h
    obtain ⟨s1, rfl, h⟩ := h
    rw [matches_lit_iff] at h
    obtain ⟨s2, rfl, h⟩ := h
    rw [matches_opt_iff] at h
    have hopt : ∃ opt s3, s2 = opt ++ s3 ∧ (opt = [] ∨ opt = ['*'])
        ∧ Matches (.starG pyWs :: .lit '\n' :: .starL anyChar
            :: .cls (fun c => c = 'C' || c = 'c')
            :: (lits ((("opyright").data)) ++ [.starL anyChar, .lit '*', .lit '/',
                .starG pyWs, .lit '\n'])) s3 r := by
      rcases h with h | ⟨c, s', rfl, hfc, h⟩
      · exact ⟨[], s2, rfl, Or.inl rfl, h⟩
      · have : c = '*' := by simpa using hfc
        subst this
        exact ⟨['*'], s', rfl, Or.inr rfl, h⟩
    clear h
    obtain ⟨opt, s3, rfl, hoptor, h⟩ := hopt
    rw [matches_starG_iff] at h
    obtain ⟨w1, s4, rfl, hw1, h⟩ := h
    rw [matches_lit_iff] at h
    obtain ⟨s5, rfl, h⟩ := h
    rw [matches_starL_iff] at h
    obtain ⟨mid1, s6, rfl, _, h⟩ := h
    rw [matches_cls_iff] at h
    obtain ⟨cc, s7, rfl, hcc, h⟩ := h
    rw [matches_lits_iff] at h
    obtain ⟨s8, rfl, h⟩ := h
    rw [matches_starL_iff] at h
    obtain ⟨mid2, s9, rfl, _, h⟩ := h
    rw [matches_lit_iff] at h
    obtain ⟨s10, rfl, h⟩ := h
    rw [matches_lit_iff] at h
    obtain ⟨s11, rfl, h⟩ := h
    rw [matches_starG_iff] at h
    obtain ⟨w2, s12, rfl, hw2, h⟩ := h
    rw [matches_lit_iff] at h
    obtain ⟨s13, rfl, _⟩ := h
    refine ⟨opt, w1, mid1, cc, mid2, w2, s13, rfl, hoptor, hw1, ?_, hw2⟩
    simpa using hcc
  · rintro ⟨opt, w1, mid1, cc, mid2, w2, rest, rfl, hoptor, hw1, hcc, hw2⟩
    refine ⟨rest, ?_⟩
    rw [matches_lit_iff]
    refine ⟨_, rfl, ?_⟩
    rw [matches_lit_iff]
    refine ⟨_, rfl, ?_⟩
    rw [matches_opt_iff]
    have hrest : Matches (.starG pyWs :: .lit '\n' :: .starL anyChar
        :: .cls (fun c => c = 'C' || c = 'c')
        :: (lits ((("opyright").data)) ++ [.starL anyChar, .lit '*', .lit '/',
            .starG pyWs, .lit '\n']))
        (w1 ++ ('\n' :: (mid1 ++ (cc :: ((("opyright").data)
          ++ (mid2 ++ ('*' :: '/' :: (w2 ++ ('\n' :: rest))))))))) rest := by
      rw [matches_starG_iff]
      refine ⟨w1, _, rfl, hw1, ?_⟩
      rw [matches_lit_iff]
      refine ⟨_, rfl, ?_⟩
      rw [matches_starL_iff]
      refine ⟨mid1, _, rfl, all_anyChar mid1, ?_⟩
      rw [matches_cls_iff]
      refine ⟨cc, _, rfl, by rcases hcc with h | h <;> simp [h], ?_⟩
      rw [matches_lits_iff]
      refine ⟨_, rfl, ?_⟩
      rw [matches_starL_iff]
      refine ⟨mid2, _, rfl, all_anyChar mid2, ?_⟩
      rw [matches_lit_iff]
      refine ⟨_, rfl, ?_⟩
      rw [matches_lit_iff]
      refine ⟨_, rfl, ?_⟩
      rw [matches_starG_iff]
      refine ⟨w2, _, rfl, hw2, ?_⟩
      rw [matches_lit_iff]
      refine ⟨_, rfl, ?_⟩
      exact Matches.nil rest
    rcases hoptor with rfl | rfl
    · exact Or.inl (by simpa using hrest)
    · exact Or.inr ⟨'*', _, rfl, by simp, hrest⟩

/-- C4 (amended): the generic matcher of update-license-headers.py fires
exactly on contents containing a suffix of the copyright-block shape
(`/*` or `/**`, whitespace, a line break, anything, `Copyright` or
`copyright` — only the first letter is case-insensitive — anything, `*/`,
whitespace, a line break); and it is consulted only when the AGPL
pattern did not match: when the AGPL pattern matches, the result is the
AGPL substitution alone. -/
theorem C4_variant_b_semantics (c : List Char) :
    (searchb COPYRIGHT_PATTERN c = true ↔ copyDecomp c)
    ∧ (searchb AGPL_PATTERN c = true →
        update_file_transform c = subAll AGPL_PATTERN (NEW_HEADER ++ NL2) c) := by
  constructor
  · rw [searchb_true_iff]
    constructor
    · rintro ⟨p, r, hr⟩
      exact ⟨p, (matches_copyright_iff _).mp ⟨r, hr⟩⟩
    · rintro ⟨p, hp⟩
      obtain ⟨r, hr⟩ := (matches_copyright_iff _).mpr hp
      exact ⟨p, r, hr⟩
  · intro h
    unfold update_file_transform
    rw [if_pos h]

/-- C4 witness: a lower-case copyright block fires the matcher and
decomposes; an AGPL-headed file is rewritten by the AGPL substitution
without consulting the generic matcher. -/
theorem C4_variant_b_semantics_witness :
    searchb AGPL_PATTERN
      (("/*\n * CIV.IQ hub\n GNU Affero General Public License text */\nx").data) = true
    ∧ update_file_transform
        (("/*\n * CIV.IQ hub\n GNU Affero General Public License text */\nx").data)
      = subAll AGPL_PATTERN (NEW_HEADER ++ NL2)
          (("/*\n * CIV.IQ hub\n GNU Affero General Public License text */\nx").data)
    ∧ (searchb COPYRIGHT_PATTERN (("/*\n copyright\n*/\nx").data) = true
        ↔ copyDecomp (("/*\n copyright\n*/\nx").data)) :=
  ⟨by decide, (C4_variant_b_semantics _).2 (by decide),
    (C4_variant_b_semantics _).1⟩

/-- C4 counterexample: a comment block whose copyright token is written
`COPYRIGHT` (upper case).  The claim says the generic matcher accepts
the token in any letter casing and replaces the block; in fact
`[Cc]opyright` requires a lower-case `opyright`, the matcher does not
fire, and the file is treated as having no header: the block is left in
place and a new header is prepended above it. -/
theorem C4_counterexample :
    searchb AGPL_PATTERN (("/*\n * COPYRIGHT 2020\n */\nlet x = 1;\n").data) = false
    ∧ searchb COPYRIGHT_PATTERN (("/*\n * COPYRIGHT 2020\n */\nlet x = 1;\n").data) = false
    ∧ update_file_transform (("/*\n * COPYRIGHT 2020\n */\nlet x = 1;\n").data)
        = NEW_HEADER ++ NL2 ++ (("/*\n * COPYRIGHT 2020\n */\nlet x = 1;\n").data) := by
  refine ⟨by decide, by decide, by decide⟩
